import Mathlib

/-!
Shallow embedding of the `chain-rs` blockchain library
(`src/lib/src/hash.rs`, `src/lib/src/block.rs`, `src/lib/src/chain.rs`).

Modelling conventions:
* Byte sequences are `List Nat` with every element `< 256`.
* `u128` values are `Nat` (all values produced by the code stay below `2^128`
  because they come from packing 16 bytes).
* `SystemTime` is modelled at millisecond granularity as an `Int` offset from
  the Unix epoch; `duration_since(UNIX_EPOCH).unwrap()` succeeds exactly when
  the offset is non-negative, so functions that perform that unwrap return
  `Option` and yield `none` on the panicking (pre-epoch) inputs.
* The external SHA-256 primitive (`crypto_hash::digest`) is a parameter
  `sha256 : List Nat → List Nat`; its documented contract (a 32-byte digest)
  appears as explicit hypotheses where a proof needs it.
* Rust `Result<(), E>` is mirrored by small inductives `MResult`/`VResult`,
  and a panicking computation is wrapped in `Option` (`none` = panic).
-/

namespace ChainRs

/-- Little-endian byte rendering of a natural number into exactly `k` bytes,
as `uN::to_le_bytes` produces for `k`-byte integers. -/
def leBytes : Nat → Nat → List Nat
  | 0, _ => []
  | k + 1, v => v % 256 :: leBytes k (v / 256)

/-- Little-endian reading of a byte list, as `u128::from_le_bytes`. -/
def fromLe : List Nat → Nat
  | [] => 0
  | b :: rest => b + 256 * fromLe rest

/-- The `Hash(u128, u128)` tuple struct from `hash.rs`: the two 128-bit
little-endian halves of a SHA-256 digest. -/
structure Hash where
  lo : Nat
  hi : Nat
deriving DecidableEq

/-- The derived `Default` for `Hash`: both halves zero. -/
def Hash.default : Hash := ⟨0, 0⟩

/-- `Hash::bytes`: `self.0.to_le_bytes() ++ self.1.to_le_bytes()`. -/
def Hash.bytes (h : Hash) : List Nat := leBytes 16 h.lo ++ leBytes 16 h.hi

/-- A Rust `String` payload, modelled by its UTF-8 byte content. -/
abbrev Payload := List Nat

/-- The `Block` struct from `block.rs`. -/
structure Block where
  timestamp : Int
  prev_hash : Hash
  hash : Hash
  payload : Payload
deriving DecidableEq

/-- The byte rendering of `timestamp.duration_since(UNIX_EPOCH).unwrap().as_millis().to_le_bytes()`:
`as_millis` returns a `u128`, so this is a 16-byte little-endian encoding; the
`unwrap` panics (`none`) when the timestamp is before the epoch. -/
def tsBytes (ts : Int) : Option (List Nat) :=
  if 0 ≤ ts then some (leBytes 16 ts.toNat) else none

/-- `<Block as Hashable>::bytes`: timestamp bytes ++ `prev_hash.bytes()` ++ payload
bytes; `none` models the panic of the timestamp `unwrap`. -/
def Block.bytesOf (b : Block) : Option (List Nat) :=
  (tsBytes b.timestamp).map (fun t => t ++ b.prev_hash.bytes ++ b.payload)

section
variable (sha256 : List Nat → List Nat)

/-- `Hash::from_bytes`: SHA-256 of the data, with the two 16-byte halves of the
digest each packed little-endian into a `u128`. -/
def Hash.from_bytes (data : List Nat) : Hash :=
  ⟨fromLe ((sha256 data).take 16), fromLe (((sha256 data).drop 16).take 16)⟩

/-- `Hashable::make_hash`: `Hash::from_bytes(&self.bytes())`. -/
def Block.make_hash (b : Block) : Option Hash :=
  (Block.bytesOf b).map (Hash.from_bytes sha256)

/-- `Block::new`: builds the block with a default hash, then stores
`block.make_hash()`; `none` models the panic on pre-epoch timestamps. -/
def Block.new (ts : Int) (ph : Hash) (p : Payload) : Option Block :=
  (Block.bytesOf ⟨ts, ph, Hash.default, p⟩).map
    (fun bs => ⟨ts, ph, Hash.from_bytes sha256 bs, p⟩)

/-- The UTF-8 bytes of the string `"Genesis block"`. -/
def genesisPayload : Payload := [71, 101, 110, 101, 115, 105, 115, 32, 98, 108, 111, 99, 107]

/-- `Block::genesis`: `Block::new(UNIX_EPOCH, Hash::from_bytes(&[1]), "Genesis block")`.
The timestamp is the epoch itself, so the construction always succeeds and
`getD` just extracts the value. -/
def Block.genesis : Block :=
  (Block.new sha256 0 (Hash.from_bytes sha256 [1]) genesisPayload).getD
    ⟨0, Hash.default, Hash.default, []⟩

/-- `Block::mine`: `Block::new(now, prev_block.hash, payload)`, with the clock
reading `now` passed in explicitly. -/
def Block.mine (ts : Int) (prev : Block) (p : Payload) : Option Block :=
  Block.new sha256 ts prev.hash p

end

/-- The `MiningError` enum from `chain.rs`. -/
inductive MiningError where
  | NoPrev
deriving DecidableEq

/-- The `ValidationError` enum from `chain.rs`. -/
inductive ValidationError where
  | EmptyChain
  | BadGenesisBlock
  | InvalidHash
  | InvalidPrevHash
deriving DecidableEq

/-- `Result<(), MiningError>`. -/
inductive MResult where
  | ok
  | err (e : MiningError)
deriving DecidableEq

/-- `Result<(), ValidationError>`. -/
inductive VResult where
  | ok
  | err (e : ValidationError)
deriving DecidableEq

/-- The `Chain` struct from `chain.rs`. -/
structure Chain where
  blocks : List Block
deriving DecidableEq

/-- `Chain::len`. -/
def Chain.len (c : Chain) : Nat := c.blocks.length

section
variable (sha256 : List Nat → List Nat)

/-- `Chain::add_block`: mines on `self.blocks.last()` (error `NoPrev` when the
chain is empty) and pushes the new block; `none` models the panic inside
`Block::new` for a pre-epoch clock reading. -/
def Chain.add_block (ts : Int) (p : Payload) (c : Chain) : Option (MResult × Chain) :=
  match c.blocks.getLast? with
  | none => some (.err .NoPrev, c)
  | some tip =>
    match Block.mine sha256 ts tip p with
    | none => none
    | some b => some (.ok, ⟨c.blocks ++ [b]⟩)

/-- The `windows(2).try_for_each(validate_neighbour_block)` walk of
`Chain::validate`: for each adjacent pair, first the link check
(`previous.get_hash() != current.get_prev_hash()` ⇒ `InvalidPrevHash`), then
the content check (`current.get_hash() != current.make_hash()` ⇒
`InvalidHash`); `none` models the panic of `make_hash` on a pre-epoch block. -/
def Chain.validatePairs : Block → List Block → Option VResult
  | _, [] => some .ok
  | prv, cur :: rest =>
    if prv.hash ≠ cur.prev_hash then some (.err .InvalidPrevHash)
    else
      match Block.make_hash sha256 cur with
      | none => none
      | some h => if cur.hash ≠ h then some (.err .InvalidHash)
                  else Chain.validatePairs cur rest

/-- `Chain::validate`: empty check, then genesis equality, then the pairwise
walk. -/
def Chain.validate (c : Chain) : Option VResult :=
  match c.blocks with
  | [] => some (.err .EmptyChain)
  | b0 :: rest =>
    if b0 ≠ Block.genesis sha256 then some (.err .BadGenesisBlock)
    else Chain.validatePairs sha256 b0 rest

/-- `Chain::accept`: keep the incumbent on a shorter-or-equal incoming chain,
otherwise validate the incoming chain and, on success, append its suffix
starting at `self.len()`. The returned `Chain` is the post-state of `self`. -/
def Chain.accept (self other : Chain) : Option (VResult × Chain) :=
  if other.len ≤ self.len then some (.ok, self)
  else
    match Chain.validate sha256 other with
    | none => none
    | some (.err e) => some (.err e, self)
    | some .ok => some (.ok, ⟨self.blocks ++ other.blocks.drop self.len⟩)

/-- `impl Default for Chain`: exactly the genesis block. -/
def Chain.defaultChain : Chain := ⟨[Block.genesis sha256]⟩

/-- Chains obtainable from the default chain by finitely many successful
`add_block` calls (each with its own clock reading). -/
inductive Reachable : Chain → Prop where
  | base : Reachable (Chain.defaultChain sha256)
  | step (c c' : Chain) (ts : Int) (p : Payload) : Reachable c →
      Chain.add_block sha256 ts p c = some (.ok, c') → Reachable c'

end

/-! ### Serde wire encoding of `Hash` (`hash.rs`, `serde` feature) -/

/-- One lowercase hex digit character (as an ASCII code), as `hex::encode`
emits: `0-9` then `a-f`. -/
def hexDigit (n : Nat) : Nat := if n < 10 then 48 + n else 87 + n

/-- `hex::encode`: two lowercase hex characters per byte, in order. -/
def hexEncode : List Nat → List Nat
  | [] => []
  | b :: rest => hexDigit (b / 16) :: hexDigit (b % 16) :: hexEncode rest

/-- `impl Serialize for Hash`: hex-encode `self.0.to_le_bytes() ++
self.1.to_le_bytes()` as one string. -/
def Hash.serialize (h : Hash) : List Nat :=
  hexEncode (leBytes 16 h.lo ++ leBytes 16 h.hi)

/-- The numeric value of one hex character, as accepted by `hex::decode`
(digits, lowercase, uppercase); `none` for a non-hex character. -/
def hexVal (c : Nat) : Option Nat :=
  if 48 ≤ c ∧ c ≤ 57 then some (c - 48)
  else if 97 ≤ c ∧ c ≤ 102 then some (c - 87)
  else if 65 ≤ c ∧ c ≤ 70 then some (c - 55)
  else none

/-- `hex::decode`: pairs of hex characters to bytes; fails on odd length or a
non-hex character. -/
def hexDecode : List Nat → Option (List Nat)
  | [] => some []
  | [_] => none
  | a :: b :: rest =>
    match hexVal a, hexVal b, hexDecode rest with
    | some x, some y, some tl => some ((16 * x + y) :: tl)
    | _, _, _ => none

/-- `HashVisitor::visit_string`: slices `v[0..16]` and `v[16..32]` (panicking,
i.e. `none`, when the string is shorter than 32 bytes or a slice index is not
a character boundary), unwraps both hex decodes (panicking on a non-hex
character), and then RE-HASHES the 16 decoded bytes through
`Hash::from_bytes`. In the byte-list model a slice through a multi-byte
character necessarily contains a byte `≥ 0x80`, which is not a hex character,
so both panic paths end in `none`. -/
def visit_string (sha256 : List Nat → List Nat) (v : List Nat) : Option Hash :=
  if v.length < 32 then none
  else
    match hexDecode (v.take 16), hexDecode ((v.drop 16).take 16) with
    | some lower, some upper => some (Hash.from_bytes sha256 (lower ++ upper))
    | _, _ => none

/-! ### Specification-side restatement of `validate` (claim C3's wording).
These definitions follow the claim's words — first violated invariant in a
fixed order, scanning adjacent pairs in index order — and are compared with
the source-translated `Chain.validate` by the C3 theorem. -/

/-- The content hash recomputed from a block's fields, total on the
timestamps a chain can actually hold (at or after the epoch). -/
def Block.recompute (sha256 : List Nat → List Nat) (b : Block) : Hash :=
  Hash.from_bytes sha256 (leBytes 16 b.timestamp.toNat ++ b.prev_hash.bytes ++ b.payload)

/-- The first violated invariant of one adjacent pair, per the claim:
`InvalidPrevHash` if the current block's `prev_hash` differs from its
predecessor's stored hash, else `InvalidHash` if the current block's stored
hash differs from its recomputed content hash. -/
def pairErr (sha256 : List Nat → List Nat) (prv cur : Block) : Option ValidationError :=
  if cur.prev_hash ≠ prv.hash then some .InvalidPrevHash
  else if cur.hash ≠ Block.recompute sha256 cur then some .InvalidHash
  else none

/-- The claim's wording of `validate`: `EmptyChain` if the sequence is empty;
else `BadGenesisBlock` if block 0 differs from the canonical genesis block;
else the first pair error scanning adjacent pairs in index order; `Ok` if no
invariant is violated. -/
def Chain.validateSpec (sha256 : List Nat → List Nat) (c : Chain) : VResult :=
  if c.blocks.isEmpty then .err .EmptyChain
  else if c.blocks.head? ≠ some (Block.genesis sha256) then .err .BadGenesisBlock
  else
    match (c.blocks.zip c.blocks.tail).findSome? (fun pc => pairErr sha256 pc.1 pc.2) with
    | some e => .err e
    | none => .ok

/-! ### Concrete digest functions used to instantiate witnesses.
Both satisfy the SHA-256 shape contract (32 bytes, each `< 256`). -/

/-- A constant 32-byte digest function. -/
def sha0 : List Nat → List Nat := fun _ => List.replicate 32 0

/-- A digest function depending only on the input length. -/
def shaLen : List Nat → List Nat := fun d => leBytes 32 d.length

/-! ### Concrete blocks used by witnesses -/

/-- A block unrelated to the genesis block, with a tip hash `⟨5, 5⟩`. -/
def blockX : Block := ⟨0, ⟨7, 7⟩, ⟨5, 5⟩, []⟩

/-- The genesis block under the constant digest function. -/
def g0 : Block := Block.genesis sha0

/-- A block that extends `g0` consistently under `sha0` (its `prev_hash` is
`g0`'s hash `⟨0, 0⟩` and its stored hash is its recomputed hash `⟨0, 0⟩`). -/
def b1 : Block := ⟨0, ⟨0, 0⟩, ⟨0, 0⟩, [1]⟩

/-! ### Basic byte-level lemmas -/

theorem leBytes_length (k v : Nat) : (leBytes k v).length = k := by
  induction k generalizing v with
  | zero => rfl
  | succ k ih => simp [leBytes, ih]

theorem leBytes_lt (k v : Nat) : ∀ b ∈ leBytes k v, b < 256 := by
  induction k generalizing v with
  | zero => simp [leBytes]
  | succ k ih =>
    intro b hb
    simp only [leBytes, List.mem_cons] at hb
    rcases hb with h | h
    · omega
    · exact ih _ b h

theorem leBytes_fromLe : ∀ (l : List Nat), (∀ b ∈ l, b < 256) →
    leBytes l.length (fromLe l) = l := by
  intro l
  induction l with
  | nil => intro _; rfl
  | cons a t ih =>
    intro hlt
    have ha : a < 256 := hlt a (List.mem_cons_self a t)
    have h1 : (a + 256 * fromLe t) % 256 = a := by
      rw [Nat.add_mul_mod_self_left, Nat.mod_eq_of_lt ha]
    have h2 : (a + 256 * fromLe t) / 256 = fromLe t := by
      rw [Nat.add_mul_div_left _ _ (by norm_num : 0 < 256), Nat.div_eq_of_lt ha]
      omega
    simp only [List.length_cons, leBytes, fromLe, h1, h2]
    rw [ih (fun b hb => hlt b (List.mem_cons_of_mem a hb))]

theorem sha0_length : ∀ d, (sha0 d).length = 32 := by
  intro d; simp [sha0]

theorem sha0_lt : ∀ d, ∀ b ∈ sha0 d, b < 256 := by
  intro d b hb
  simp only [sha0, List.mem_replicate] at hb
  omega

theorem shaLen_length : ∀ d, (shaLen d).length = 32 := by
  intro d; simp [shaLen, leBytes_length]

theorem shaLen_lt : ∀ d, ∀ b ∈ shaLen d, b < 256 := by
  intro d b hb
  exact leBytes_lt 32 d.length b hb

theorem leBytes16_fromLe (l : List Nat) (hl : l.length = 16) (hlt : ∀ b ∈ l, b < 256) :
    leBytes 16 (fromLe l) = l := by
  have h := leBytes_fromLe l hlt
  rwa [hl] at h

/-! ### Helper lemmas about `Block.new` -/

theorem Block.new_some (sha256 : List Nat → List Nat) (ts : Int) (ph : Hash) (p : Payload)
    (h : 0 ≤ ts) :
    Block.new sha256 ts ph p =
      some ⟨ts, ph, Hash.from_bytes sha256 (leBytes 16 ts.toNat ++ ph.bytes ++ p), p⟩ := by
  simp [Block.new, Block.bytesOf, tsBytes, h]

theorem Block.new_none (sha256 : List Nat → List Nat) (ts : Int) (ph : Hash) (p : Payload)
    (h : ts < 0) :
    Block.new sha256 ts ph p = none := by
  simp [Block.new, Block.bytesOf, tsBytes, show ¬ (0 ≤ ts) by omega]

theorem Block.new_make_hash (sha256 : List Nat → List Nat) (ts : Int) (ph : Hash) (p : Payload)
    (b : Block) (h : Block.new sha256 ts ph p = some b) :
    Block.make_hash sha256 b = some b.hash ∧ b.prev_hash = ph ∧ b.payload = p
    ∧ b.timestamp = ts := by
  rcases le_or_lt 0 ts with hts | hts
  · rw [Block.new_some sha256 ts ph p hts] at h
    obtain rfl : (⟨ts, ph, Hash.from_bytes sha256 (leBytes 16 ts.toNat ++ ph.bytes ++ p), p⟩ :
        Block) = b := Option.some.inj h
    refine ⟨?_, rfl, rfl, rfl⟩
    simp [Block.make_hash, Block.bytesOf, tsBytes, hts]
  · rw [Block.new_none sha256 ts ph p hts] at h
    exact Option.noConfusion h

/-! ### Claim C7 -/

/-- C7: for every byte sequence `data` (including the empty one),
`Hash::from_bytes(data)` is a total function of `data`, and the round-trip
`Hash::from_bytes(data).bytes()` returns exactly the 32-byte SHA-256 digest of
`data`: the two 128-bit halves are each packed and re-emitted in little-endian
order and concatenated in order. -/
theorem hash_from_bytes_digest (sha256 : List Nat → List Nat)
    (hlen : ∀ d, (sha256 d).length = 32) (hlt : ∀ d, ∀ b ∈ sha256 d, b < 256)
    (data : List Nat) :
    (Hash.from_bytes sha256 data).bytes = sha256 data := by
  have h1 : ((sha256 data).take 16).length = 16 := by
    rw [List.length_take, hlen]
    omega
  have h2 : (((sha256 data).drop 16).take 16).length = 16 := by
    rw [List.length_take, List.length_drop, hlen]
    omega
  have h3 : ((sha256 data).drop 16).take 16 = (sha256 data).drop 16 :=
    List.take_of_length_le (by rw [List.length_drop, hlen])
  unfold Hash.from_bytes Hash.bytes
  simp only
  rw [leBytes16_fromLe _ h1 (fun b hb => hlt data b (List.mem_of_mem_take hb)),
    leBytes16_fromLe _ h2 (fun b hb => hlt data b (List.mem_of_mem_drop (List.mem_of_mem_take hb))),
    h3, List.take_append_drop]

theorem hash_from_bytes_digest_w : (Hash.from_bytes sha0 []).bytes = sha0 [] :=
  hash_from_bytes_digest sha0 sha0_length sha0_lt []

/-! ### Claim C4 -/

/-- C4 refutation: the canonical bytes do NOT use an 8-byte timestamp
encoding. `as_millis()` yields a `u128`, so `to_le_bytes()` emits 16 bytes;
under an admissible digest function that depends only on the input length, a
concrete block's stored hash differs from the hash of the 8-byte-timestamp
rendering. -/
theorem block_new_hash_8byte_cex :
    ¬ (∀ (sha256 : List Nat → List Nat), (∀ d, (sha256 d).length = 32) →
        (∀ d, ∀ x ∈ sha256 d, x < 256) →
        ∀ (ts : Int) (ph : Hash) (p : Payload) (b : Block),
          Block.new sha256 ts ph p = some b →
          b.hash = Hash.from_bytes sha256 (leBytes 8 ts.toNat ++ ph.bytes ++ p)) := by
  intro hcl
  have hb : Block.new shaLen 0 Hash.default [] = some ⟨0, Hash.default, ⟨48, 0⟩, []⟩ := by
    decide
  have heq := hcl shaLen shaLen_length shaLen_lt 0 Hash.default [] _ hb
  exact absurd heq (by decide)

/-- C4 (amended): for every block constructed by `Block::new(ts, prev_hash,
payload)`, the stored hash equals SHA-256 (packed into a `Hash`) of the
canonical bytes: the little-endian millisecond timestamp encoded in exactly
16 bytes (`u128::to_le_bytes` of `as_millis()`), followed by the 32 bytes of
`prev_hash`, followed by the raw payload bytes, in that order. -/
theorem block_new_hash_canonical (sha256 : List Nat → List Nat) (ts : Int) (ph : Hash)
    (p : Payload) (b : Block) (h : Block.new sha256 ts ph p = some b) :
    b.hash = Hash.from_bytes sha256 (leBytes 16 ts.toNat ++ ph.bytes ++ p)
    ∧ (leBytes 16 ts.toNat).length = 16 ∧ ph.bytes.length = 32 := by
  refine ⟨?_, leBytes_length 16 _, by simp [Hash.bytes, leBytes_length]⟩
  rcases le_or_lt 0 ts with hts | hts
  · rw [Block.new_some sha256 ts ph p hts] at h
    obtain rfl : (⟨ts, ph, Hash.from_bytes sha256 (leBytes 16 ts.toNat ++ ph.bytes ++ p), p⟩ :
        Block) = b := Option.some.inj h
    rfl
  · rw [Block.new_none sha256 ts ph p hts] at h
    exact Option.noConfusion h

theorem block_new_hash_canonical_w :
    (⟨0, Hash.default, ⟨0, 0⟩, []⟩ : Block).hash =
      Hash.from_bytes sha0 (leBytes 16 ((0 : Int)).toNat ++ Hash.default.bytes ++ [])
    ∧ (leBytes 16 ((0 : Int)).toNat).length = 16 ∧ Hash.default.bytes.length = 32 :=
  block_new_hash_canonical sha0 0 Hash.default [] ⟨0, Hash.default, ⟨0, 0⟩, []⟩ (by decide)

/-! ### Claim C6 -/

/-- C6 refutation: `Block::new` does not succeed for every timestamp; for a
timestamp before the Unix epoch the `duration_since(UNIX_EPOCH).unwrap()`
inside the hashing path panics, so no block is produced. -/
theorem block_new_pre_epoch_cex :
    ¬ (∀ (sha256 : List Nat → List Nat), (∀ d, (sha256 d).length = 32) →
        (∀ d, ∀ x ∈ sha256 d, x < 256) →
        ∀ (ts : Int) (ph : Hash) (p : Payload), ∃ b, Block.new sha256 ts ph p = some b) := by
  intro hcl
  obtain ⟨b, hb⟩ := hcl sha0 sha0_length sha0_lt (-1) Hash.default []
  rw [show Block.new sha0 (-1) Hash.default [] = none from rfl] at hb
  exact Option.noConfusion hb

/-- C6 (amended): `Block::new(ts, prev_hash, payload)` succeeds for every
timestamp at or after the Unix epoch, every `prev_hash` and every payload,
storing the hash computed from the canonical byte form; for a timestamp
before the epoch the construction panics instead of returning a block. -/
theorem block_new_total_post_epoch (sha256 : List Nat → List Nat) (ts : Int) (ph : Hash)
    (p : Payload) :
    (0 ≤ ts → ∃ b, Block.new sha256 ts ph p = some b ∧ b.timestamp = ts
      ∧ b.prev_hash = ph ∧ b.payload = p
      ∧ b.hash = Hash.from_bytes sha256 (leBytes 16 ts.toNat ++ ph.bytes ++ p))
    ∧ (ts < 0 → Block.new sha256 ts ph p = none) := by
  constructor
  · intro h
    exact ⟨_, Block.new_some sha256 ts ph p h, rfl, rfl, rfl, rfl⟩
  · intro h
    exact Block.new_none sha256 ts ph p h

theorem block_new_total_post_epoch_w :
    ∃ b, Block.new sha0 0 Hash.default [] = some b ∧ b.timestamp = 0
      ∧ b.prev_hash = Hash.default ∧ b.payload = []
      ∧ b.hash = Hash.from_bytes sha0 (leBytes 16 ((0 : Int)).toNat ++ Hash.default.bytes ++ []) :=
  (block_new_total_post_epoch sha0 0 Hash.default []).1 (by decide)

/-! ### Claim C1 -/

/-- C1: whenever the incoming chain is strictly longer and internally valid,
`accept` succeeds and appends to `self` exactly the suffix of `other` starting
at index `len(self)`: the result's length is `len(other)`, its first
`len(self)` blocks are `self`'s, and from index `len(self)` on it coincides
with `other`. No hypothesis links the first appended block's `prev_hash` to
`self`'s former tip hash: the splice is unconditional. -/
theorem chain_accept_splices (sha256 : List Nat → List Nat) (self other : Chain)
    (hlen : self.len < other.len)
    (hval : Chain.validate sha256 other = some .ok) :
    Chain.accept sha256 self other = some (.ok, ⟨self.blocks ++ other.blocks.drop self.len⟩)
    ∧ (self.blocks ++ other.blocks.drop self.len).length = other.len
    ∧ (self.blocks ++ other.blocks.drop self.len).take self.len = self.blocks
    ∧ (self.blocks ++ other.blocks.drop self.len).drop self.len = other.blocks.drop self.len := by
  have hnle : ¬ other.len ≤ self.len := not_le.mpr hlen
  have hself : self.len = self.blocks.length := rfl
  refine ⟨?_, ?_, ?_, ?_⟩
  · simp [Chain.accept, hnle, hval]
  · simp only [List.length_append, List.length_drop]
    unfold Chain.len at hlen ⊢
    omega
  · rw [hself, List.take_left]
  · rw [hself, List.drop_left]

theorem chain_accept_splices_w :
    Chain.accept sha0 ⟨[blockX]⟩ ⟨[g0, b1]⟩ =
      some (.ok, ⟨[blockX] ++ ([g0, b1] : List Block).drop (Chain.len ⟨[blockX]⟩)⟩) :=
  (chain_accept_splices sha0 ⟨[blockX]⟩ ⟨[g0, b1]⟩ (by decide) (by decide)).1

/-! ### Claim C2 -/

/-- C2: `accept` never decreases the chain length, and mutates `self` only in
the successful splice case: a shorter-or-equal incoming chain is a successful
no-op, and an invalid strictly-longer incoming chain surfaces its
`ValidationError` unchanged and leaves `self` unchanged. -/
theorem chain_accept_monotone (sha256 : List Nat → List Nat) (self other : Chain) :
    (other.len ≤ self.len → Chain.accept sha256 self other = some (.ok, self))
    ∧ (∀ e, self.len < other.len → Chain.validate sha256 other = some (.err e) →
        Chain.accept sha256 self other = some (.err e, self))
    ∧ (∀ r s', Chain.accept sha256 self other = some (r, s') → self.len ≤ s'.len) := by
  refine ⟨?_, ?_, ?_⟩
  · intro h
    simp [Chain.accept, h]
  · intro e h hv
    simp [Chain.accept, not_le.mpr h, hv]
  · intro r s' h
    unfold Chain.accept at h
    split at h
    · simp only [Option.some.injEq, Prod.mk.injEq] at h
      obtain ⟨-, rfl⟩ := h
      exact le_refl _
    · split at h
      · exact Option.noConfusion h
      · simp only [Option.some.injEq, Prod.mk.injEq] at h
        obtain ⟨-, rfl⟩ := h
        exact le_refl _
      · simp only [Option.some.injEq, Prod.mk.injEq] at h
        obtain ⟨-, rfl⟩ := h
        simp only [Chain.len, List.length_append]
        exact Nat.le_add_right _ _

theorem chain_accept_monotone_w :
    Chain.accept sha0 ⟨[g0]⟩ ⟨[]⟩ = some (.ok, ⟨[g0]⟩) :=
  (chain_accept_monotone sha0 ⟨[g0]⟩ ⟨[]⟩).1 (by decide)

/-! ### Claim C9 -/

/-- C9: `add_block(payload)` fails with `NoPrev` exactly when the chain is
empty, leaving the chain unchanged in that case; otherwise (for a clock
reading at or after the epoch) it appends exactly one block whose `prev_hash`
is the previous tip's stored hash and whose payload is the given payload, the
length grows by one, and no hypothesis about the validity of the existing
chain is needed. -/
theorem chain_add_block_spec (sha256 : List Nat → List Nat) (ts : Int) (p : Payload)
    (c : Chain) :
    (c.blocks = [] → Chain.add_block sha256 ts p c = some (.err .NoPrev, c))
    ∧ (c.blocks ≠ [] → 0 ≤ ts →
        ∃ b tip, c.blocks.getLast? = some tip
          ∧ Chain.add_block sha256 ts p c = some (.ok, ⟨c.blocks ++ [b]⟩)
          ∧ b.prev_hash = tip.hash ∧ b.payload = p ∧ b.timestamp = ts
          ∧ Chain.len ⟨c.blocks ++ [b]⟩ = c.len + 1)
    ∧ (∀ r c', Chain.add_block sha256 ts p c = some (r, c') → r = .err .NoPrev →
        c.blocks = []) := by
  refine ⟨?_, ?_, ?_⟩
  · intro h
    simp [Chain.add_block, h]
  · intro hne hts
    obtain ⟨tip, htip⟩ := Option.isSome_iff_exists.mp (List.getLast?_isSome.mpr hne)
    have hm : Block.mine sha256 ts tip p =
        some ⟨ts, tip.hash, Hash.from_bytes sha256 (leBytes 16 ts.toNat ++ tip.hash.bytes ++ p),
          p⟩ :=
      Block.new_some sha256 ts tip.hash p hts
    refine ⟨⟨ts, tip.hash, Hash.from_bytes sha256 (leBytes 16 ts.toNat ++ tip.hash.bytes ++ p),
      p⟩, tip, htip, ?_, rfl, rfl, rfl, ?_⟩
    · simp only [Chain.add_block, htip, hm]
    · simp [Chain.len]
  · intro r c' h hr
    unfold Chain.add_block at h
    split at h
    · next hgl => exact List.getLast?_eq_none_iff.mp hgl
    · split at h
      · exact Option.noConfusion h
      · simp only [Option.some.injEq, Prod.mk.injEq] at h
        obtain ⟨rfl, -⟩ := h
        exact MResult.noConfusion hr

theorem chain_add_block_spec_w :
    Chain.add_block sha0 0 [] ⟨[]⟩ = some (.err .NoPrev, ⟨[]⟩) :=
  (chain_add_block_spec sha0 0 [] ⟨[]⟩).1 rfl

/-! ### Claim C3 -/

theorem Block.make_hash_nonneg (sha256 : List Nat → List Nat) (b : Block)
    (h : 0 ≤ b.timestamp) :
    Block.make_hash sha256 b = some (Block.recompute sha256 b) := by
  simp [Block.make_hash, Block.bytesOf, tsBytes, Block.recompute, h]

theorem validatePairs_eq_spec (sha256 : List Nat → List Nat) :
    ∀ (l : List Block) (prv : Block), (∀ b ∈ l, 0 ≤ b.timestamp) →
      Chain.validatePairs sha256 prv l =
        some (match ((prv :: l).zip l).findSome? (fun pc => pairErr sha256 pc.1 pc.2) with
              | some e => VResult.err e
              | none => VResult.ok) := by
  intro l
  induction l with
  | nil => intro prv _; rfl
  | cons cur t ih =>
    intro prv hts
    have hcur : 0 ≤ cur.timestamp := hts cur (List.mem_cons_self cur t)
    have ht : ∀ b ∈ t, 0 ≤ b.timestamp := fun b hb => hts b (List.mem_cons_of_mem cur hb)
    have e1 : Chain.validatePairs sha256 prv (cur :: t) =
        (if prv.hash ≠ cur.prev_hash then some (.err .InvalidPrevHash)
         else match Block.make_hash sha256 cur with
           | none => none
           | some h => if cur.hash ≠ h then some (.err .InvalidHash)
                       else Chain.validatePairs sha256 cur t) := rfl
    have e2 : Chain.validatePairs sha256 prv (cur :: t) =
        (if prv.hash ≠ cur.prev_hash then some (.err .InvalidPrevHash)
         else if cur.hash ≠ Block.recompute sha256 cur then some (.err .InvalidHash)
         else Chain.validatePairs sha256 cur t) := by
      rw [e1, Block.make_hash_nonneg sha256 cur hcur]
    rw [List.zip_cons_cons, List.findSome?_cons]
    by_cases hpc : prv.hash = cur.prev_hash
    · by_cases hch : cur.hash = Block.recompute sha256 cur
      · have hpe : pairErr sha256 prv cur = none := by
          simp [pairErr, hpc.symm, hch]
        rw [e2, if_neg (by simp [hpc]), if_neg (by simp [hch]), hpe, ih cur ht]
      · have hpe : pairErr sha256 prv cur = some .InvalidHash := by
          simp [pairErr, hpc.symm, hch]
        rw [e2, if_neg (by simp [hpc]), if_pos hch, hpe]
    · have hpe : pairErr sha256 prv cur = some .InvalidPrevHash := by
        have hne : cur.prev_hash ≠ prv.hash := fun hh => hpc hh.symm
        simp [pairErr, hne]
      rw [e2, if_pos (show prv.hash ≠ cur.prev_hash from hpc), hpe]

/-- C3: `validate` is a pure function of the chain (the model takes the chain
by value and returns only the verdict) and, for every chain whose blocks carry
representable (at-or-after-epoch) timestamps, returns the first violated
invariant in the claim's fixed order — empty, bad genesis, then for each
adjacent pair in index order link error before content error — stopping at
the first failure, `Ok` otherwise: it coincides with the specification-worded
`validateSpec`. -/
theorem chain_validate_first_error (sha256 : List Nat → List Nat) (c : Chain)
    (hts : ∀ b ∈ c.blocks, 0 ≤ b.timestamp) :
    Chain.validate sha256 c = some (Chain.validateSpec sha256 c) := by
  obtain ⟨blocks⟩ := c
  cases blocks with
  | nil => rfl
  | cons b0 rest =>
    by_cases hg : b0 = Block.genesis sha256
    · have hrest : ∀ b ∈ rest, 0 ≤ b.timestamp :=
        fun b hb => hts b (List.mem_cons_of_mem b0 hb)
      have h1 : Chain.validate sha256 ⟨b0 :: rest⟩ = Chain.validatePairs sha256 b0 rest := by
        simp [Chain.validate, hg]
      have h2 : Chain.validateSpec sha256 ⟨b0 :: rest⟩ =
          (match ((b0 :: rest).zip rest).findSome? (fun pc => pairErr sha256 pc.1 pc.2) with
           | some e => VResult.err e
           | none => VResult.ok) := by
        simp [Chain.validateSpec, hg]
      rw [h1, h2, hg]
      exact validatePairs_eq_spec sha256 rest (Block.genesis sha256) hrest
    · simp [Chain.validate, Chain.validateSpec, hg]

theorem chain_validate_first_error_w :
    Chain.validate sha0 ⟨[g0, b1]⟩ = some (Chain.validateSpec sha0 ⟨[g0, b1]⟩) :=
  chain_validate_first_error sha0 ⟨[g0, b1]⟩ (by decide)

/-! ### Claim C5 -/

theorem Block.genesis_new (sha256 : List Nat → List Nat) :
    Block.new sha256 0 (Hash.from_bytes sha256 [1]) genesisPayload =
      some (Block.genesis sha256) := by
  unfold Block.genesis
  rw [Block.new_some sha256 0 (Hash.from_bytes sha256 [1]) genesisPayload (le_refl 0)]
  rfl

theorem Block.genesis_make_hash (sha256 : List Nat → List Nat) :
    Block.make_hash sha256 (Block.genesis sha256) = some (Block.genesis sha256).hash :=
  (Block.new_make_hash sha256 0 (Hash.from_bytes sha256 [1]) genesisPayload
    (Block.genesis sha256) (Block.genesis_new sha256)).1

theorem validatePairs_ok_inv (sha256 : List Nat → List Nat) (prv cur : Block) (t : List Block)
    (h : Chain.validatePairs sha256 prv (cur :: t) = some .ok) :
    prv.hash = cur.prev_hash ∧ Block.make_hash sha256 cur = some cur.hash
    ∧ Chain.validatePairs sha256 cur t = some .ok := by
  have e1 : Chain.validatePairs sha256 prv (cur :: t) =
      (if prv.hash ≠ cur.prev_hash then some (.err .InvalidPrevHash)
       else match Block.make_hash sha256 cur with
         | none => none
         | some hh => if cur.hash ≠ hh then some (.err .InvalidHash)
                      else Chain.validatePairs sha256 cur t) := rfl
  rw [e1] at h
  by_cases hpc : prv.hash = cur.prev_hash
  · rw [if_neg (by simp [hpc])] at h
    cases hm : Block.make_hash sha256 cur with
    | none =>
      rw [hm] at h
      exact Option.noConfusion h
    | some hh =>
      rw [hm] at h
      replace h : (if cur.hash ≠ hh then some (VResult.err .InvalidHash)
          else Chain.validatePairs sha256 cur t) = some VResult.ok := h
      by_cases hch : cur.hash = hh
      · rw [if_neg (by simp [hch])] at h
        exact ⟨hpc, by rw [hch], h⟩
      · rw [if_pos hch] at h
        exact VResult.noConfusion (Option.some.inj h)
  · rw [if_pos hpc] at h
    exact VResult.noConfusion (Option.some.inj h)

theorem validatePairs_append (sha256 : List Nat → List Nat) :
    ∀ (l : List Block) (prv tip b : Block),
      Chain.validatePairs sha256 prv l = some .ok →
      (prv :: l).getLast? = some tip →
      b.prev_hash = tip.hash →
      Block.make_hash sha256 b = some b.hash →
      Chain.validatePairs sha256 prv (l ++ [b]) = some .ok := by
  intro l
  induction l with
  | nil =>
    intro prv tip b _ hlast hbp hbh
    obtain rfl : prv = tip := by simpa using hlast
    have e1 : Chain.validatePairs sha256 prv [b] =
        (if prv.hash ≠ b.prev_hash then some (.err .InvalidPrevHash)
         else match Block.make_hash sha256 b with
           | none => none
           | some hh => if b.hash ≠ hh then some (.err .InvalidHash)
                        else Chain.validatePairs sha256 b []) := rfl
    rw [show ([] : List Block) ++ [b] = [b] from rfl, e1, if_neg (by simp [hbp]), hbh]
    simp [Chain.validatePairs]
  | cons cur t ih =>
    intro prv tip b h hlast hbp hbh
    obtain ⟨hpc, hmh, hrest⟩ := validatePairs_ok_inv sha256 prv cur t h
    have hlast' : (cur :: t).getLast? = some tip := by
      rw [← hlast]
      exact List.getLast?_cons_cons.symm
    have hrec := ih cur tip b hrest hlast' hbp hbh
    rw [List.cons_append]
    have e1 : Chain.validatePairs sha256 prv (cur :: (t ++ [b])) =
        (if prv.hash ≠ cur.prev_hash then some (.err .InvalidPrevHash)
         else match Block.make_hash sha256 cur with
           | none => none
           | some hh => if cur.hash ≠ hh then some (.err .InvalidHash)
                        else Chain.validatePairs sha256 cur (t ++ [b])) := rfl
    rw [e1, if_neg (by simp [hpc]), hmh]
    simp [hrec]

theorem validatePairs_ok_link (sha256 : List Nat → List Nat) :
    ∀ (l : List Block) (prv : Block), Chain.validatePairs sha256 prv l = some .ok →
      ∀ i pb cb, (prv :: l)[i]? = some pb → (prv :: l)[i + 1]? = some cb →
        pb.hash = cb.prev_hash := by
  intro l
  induction l with
  | nil =>
    intro prv _ i pb cb _ hcb
    rw [List.getElem?_eq_none (by simp)] at hcb
    exact Option.noConfusion hcb
  | cons cur t ih =>
    intro prv h i pb cb hpb hcb
    obtain ⟨hpc, -, hrest⟩ := validatePairs_ok_inv sha256 prv cur t h
    cases i with
    | zero =>
      simp only [List.getElem?_cons_zero, Option.some.injEq] at hpb
      simp only [zero_add, List.getElem?_cons_succ, List.getElem?_cons_zero,
        Option.some.injEq] at hcb
      subst hpb
      subst hcb
      exact hpc
    | succ j =>
      simp only [List.getElem?_cons_succ] at hpb hcb
      exact ih cur hrest j pb cb hpb (by simpa using hcb)

theorem validatePairs_ok_content (sha256 : List Nat → List Nat) :
    ∀ (l : List Block) (prv : Block), Chain.validatePairs sha256 prv l = some .ok →
      ∀ b ∈ l, Block.make_hash sha256 b = some b.hash := by
  intro l
  induction l with
  | nil =>
    intro prv _ b hb
    exact absurd hb (List.not_mem_nil b)
  | cons cur t ih =>
    intro prv h b hb
    obtain ⟨-, hmh, hrest⟩ := validatePairs_ok_inv sha256 prv cur t h
    rcases List.mem_cons.mp hb with rfl | hb'
    · exact hmh
    · exact ih cur hrest b hb'

theorem validate_ok_shape (sha256 : List Nat → List Nat) (c : Chain)
    (h : Chain.validate sha256 c = some .ok) :
    ∃ rest, c.blocks = Block.genesis sha256 :: rest
      ∧ Chain.validatePairs sha256 (Block.genesis sha256) rest = some .ok := by
  obtain ⟨blocks⟩ := c
  cases blocks with
  | nil => simp [Chain.validate] at h
  | cons b0 rest =>
    by_cases hg : b0 = Block.genesis sha256
    · subst hg
      refine ⟨rest, rfl, ?_⟩
      simpa [Chain.validate] using h
    · simp [Chain.validate, hg] at h

/-- C5: every chain obtained from the default chain (exactly the canonical
genesis block) by finitely many successful `add_block` calls validates `Ok`;
in particular every adjacent pair is hash-linked and every block's stored
hash equals its recomputed content hash. -/
theorem chain_reachable_valid (sha256 : List Nat → List Nat) (c : Chain)
    (hr : Reachable sha256 c) :
    Chain.validate sha256 c = some .ok
    ∧ (∀ i pb cb, c.blocks[i]? = some pb → c.blocks[i + 1]? = some cb →
        pb.hash = cb.prev_hash)
    ∧ (∀ b ∈ c.blocks, Block.make_hash sha256 b = some b.hash) := by
  have hv : Chain.validate sha256 c = some .ok := by
    induction hr with
    | base => simp [Chain.defaultChain, Chain.validate, Chain.validatePairs]
    | step c c' ts p hr' hadd ih =>
      unfold Chain.add_block at hadd
      split at hadd
      · simp at hadd
      · next tip htip =>
        split at hadd
        · exact Option.noConfusion hadd
        · next b hmine =>
          simp only [Option.some.injEq, Prod.mk.injEq, true_and] at hadd
          obtain rfl := hadd
          obtain ⟨rest, hbl, hpairs⟩ := validate_ok_shape sha256 c ih
          have hmine' : Block.new sha256 ts tip.hash p = some b := hmine
          obtain ⟨hmh, hbp, -, -⟩ := Block.new_make_hash sha256 ts tip.hash p b hmine'
          rw [hbl] at htip
          have hpairs' : Chain.validatePairs sha256 (Block.genesis sha256) (rest ++ [b]) =
              some .ok :=
            validatePairs_append sha256 rest (Block.genesis sha256) tip b hpairs htip hbp hmh
          have hbl' : (Chain.mk (c.blocks ++ [b])).blocks =
              Block.genesis sha256 :: (rest ++ [b]) := by
            simp [hbl]
          show Chain.validate sha256 ⟨c.blocks ++ [b]⟩ = some .ok
          unfold Chain.validate
          rw [hbl']
          simp [hpairs']
  refine ⟨hv, ?_, ?_⟩
  · obtain ⟨rest, hbl, hpairs⟩ := validate_ok_shape sha256 c hv
    rw [hbl]
    exact validatePairs_ok_link sha256 rest (Block.genesis sha256) hpairs
  · obtain ⟨rest, hbl, hpairs⟩ := validate_ok_shape sha256 c hv
    rw [hbl]
    intro b hb
    rcases List.mem_cons.mp hb with rfl | hb'
    · exact Block.genesis_make_hash sha256
    · exact validatePairs_ok_content sha256 rest (Block.genesis sha256) hpairs b hb'

theorem chain_reachable_valid_w :
    Chain.validate sha0 (Chain.defaultChain sha0) = some VResult.ok :=
  (chain_reachable_valid sha0 (Chain.defaultChain sha0) Reachable.base).1

/-! ### Hex encoding and decoding lemmas -/

theorem hexEncode_length : ∀ l : List Nat, (hexEncode l).length = 2 * l.length
  | [] => rfl
  | b :: rest => by
    simp only [hexEncode, List.length_cons, hexEncode_length rest]
    omega

theorem hexDigit_range (n : Nat) (h : n < 16) :
    (48 ≤ hexDigit n ∧ hexDigit n ≤ 57) ∨ (97 ≤ hexDigit n ∧ hexDigit n ≤ 102) := by
  unfold hexDigit
  split <;> omega

theorem hexEncode_range : ∀ (l : List Nat), (∀ b ∈ l, b < 256) →
    ∀ c ∈ hexEncode l, (48 ≤ c ∧ c ≤ 57) ∨ (97 ≤ c ∧ c ≤ 102)
  | [], _ => by simp [hexEncode]
  | b :: rest, hlt => by
    intro c hc
    simp only [hexEncode, List.mem_cons] at hc
    have hb : b < 256 := hlt b (List.mem_cons_self b rest)
    rcases hc with rfl | rfl | hc
    · exact hexDigit_range _ ((Nat.div_lt_iff_lt_mul (by norm_num)).mpr (by omega))
    · exact hexDigit_range _ (Nat.mod_lt _ (by norm_num))
    · exact hexEncode_range rest (fun x hx => hlt x (List.mem_cons_of_mem b hx)) c hc

theorem hexDecode_eq_none_iff : ∀ (l : List Nat), l.length % 2 = 0 →
    (hexDecode l = none ↔ ∃ c ∈ l, hexVal c = none)
  | [] => by simp [hexDecode]
  | [a] => by
    intro h
    simp at h
  | a :: b :: rest => by
    intro h
    have hr : rest.length % 2 = 0 := by
      simp only [List.length_cons] at h
      omega
    have ihr := hexDecode_eq_none_iff rest hr
    constructor
    · intro hn
      cases hva : hexVal a with
      | none => exact ⟨a, List.mem_cons_self a _, hva⟩
      | some x =>
        cases hvb : hexVal b with
        | none => exact ⟨b, List.mem_cons_of_mem a (List.mem_cons_self b rest), hvb⟩
        | some y =>
          cases hdr : hexDecode rest with
          | none =>
            obtain ⟨c, hc, hvc⟩ := ihr.mp hdr
            exact ⟨c, List.mem_cons_of_mem a (List.mem_cons_of_mem b hc), hvc⟩
          | some tl =>
            rw [show hexDecode (a :: b :: rest) = some ((16 * x + y) :: tl) from by
              simp [hexDecode, hva, hvb, hdr]] at hn
            exact Option.noConfusion hn
    · rintro ⟨c, hc, hvc⟩
      simp only [List.mem_cons] at hc
      rcases hc with rfl | rfl | hc
      · simp [hexDecode, hvc]
      · cases hva : hexVal a with
        | none => simp [hexDecode, hva]
        | some x => simp [hexDecode, hva, hvc]
      · have hdr := ihr.mpr ⟨c, hc, hvc⟩
        cases hva : hexVal a with
        | none => simp [hexDecode, hva]
        | some x =>
          cases hvb : hexVal b with
          | none => simp [hexDecode, hva, hvb]
          | some y => simp [hexDecode, hva, hvb, hdr]

theorem visit_string_take32 (sha256 : List Nat → List Nat) (v w : List Nat)
    (h : v.take 32 = w.take 32) :
    visit_string sha256 v = visit_string sha256 w := by
  have hlen : min 32 v.length = min 32 w.length := by
    have hcl := congrArg List.length h
    simpa [List.length_take] using hcl
  have h16 : v.take 16 = w.take 16 := by
    have h2 : (v.take 32).take 16 = (w.take 32).take 16 := by rw [h]
    simpa [List.take_take] using h2
  have hdt : (v.drop 16).take 16 = (w.drop 16).take 16 := by
    have h2 : (v.take 32).drop 16 = (w.take 32).drop 16 := by rw [h]
    rw [List.drop_take, List.drop_take] at h2
    simpa using h2
  unfold visit_string
  by_cases hv : v.length < 32
  · have hw : w.length < 32 := by omega
    rw [if_pos hv, if_pos hw]
  · have hw : ¬ w.length < 32 := by omega
    rw [if_neg hv, if_neg hw, h16, hdt]

/-! ### Claim C10 -/

/-- C10: `visit_string` is partial at the public interface: it reads only the
first 32 bytes of the input (`v[0..16]` and `v[16..32]`), panics (`none`) on
every input shorter than 32 bytes and on every input whose first 32 characters
are not all valid hexadecimal, succeeds when they are, and its result never
depends on characters beyond index 32. -/
theorem hash_visit_string_domain (sha256 : List Nat → List Nat) :
    (∀ v : List Nat, v.length < 32 → visit_string sha256 v = none)
    ∧ (∀ v : List Nat, (∃ c ∈ v.take 32, hexVal c = none) → visit_string sha256 v = none)
    ∧ (∀ v w : List Nat, v.take 32 = w.take 32 →
        visit_string sha256 v = visit_string sha256 w)
    ∧ (∀ v : List Nat, 32 ≤ v.length → (∀ c ∈ v.take 32, hexVal c ≠ none) →
        ∃ h, visit_string sha256 v = some h) := by
  have hsplit : ∀ v : List Nat, v.take 32 = v.take 16 ++ (v.drop 16).take 16 := by
    intro v
    rw [show (32 : Nat) = 16 + 16 from rfl, List.take_add]
  refine ⟨?_, ?_, ?_, ?_⟩
  · intro v h
    simp [visit_string, h]
  · rintro v ⟨c, hc, hvc⟩
    by_cases hv : v.length < 32
    · simp [visit_string, hv]
    · have hlen16 : (v.take 16).length = 16 := by
        simp only [List.length_take]
        omega
      have hlen16' : ((v.drop 16).take 16).length = 16 := by
        simp only [List.length_take, List.length_drop]
        omega
      rw [hsplit v, List.mem_append] at hc
      unfold visit_string
      rw [if_neg hv]
      rcases hc with hc1 | hc2
      · have hd1 : hexDecode (v.take 16) = none :=
          (hexDecode_eq_none_iff (v.take 16) (by rw [hlen16])).mpr ⟨c, hc1, hvc⟩
        rw [hd1]
      · have hd2 : hexDecode ((v.drop 16).take 16) = none :=
          (hexDecode_eq_none_iff ((v.drop 16).take 16) (by rw [hlen16'])).mpr ⟨c, hc2, hvc⟩
        rw [hd2]
        cases hexDecode (v.take 16) <;> rfl
  · exact visit_string_take32 sha256
  · intro v hv32 hall
    have hlen16 : (v.take 16).length = 16 := by
      simp only [List.length_take]
      omega
    have hlen16' : ((v.drop 16).take 16).length = 16 := by
      simp only [List.length_take, List.length_drop]
      omega
    have hne1 : hexDecode (v.take 16) ≠ none := by
      rw [Ne, hexDecode_eq_none_iff (v.take 16) (by rw [hlen16])]
      rintro ⟨c, hc, hvc⟩
      refine hall c ?_ hvc
      rw [hsplit v]
      exact List.mem_append_left _ hc
    have hne2 : hexDecode ((v.drop 16).take 16) ≠ none := by
      rw [Ne, hexDecode_eq_none_iff ((v.drop 16).take 16) (by rw [hlen16'])]
      rintro ⟨c, hc, hvc⟩
      refine hall c ?_ hvc
      rw [hsplit v]
      exact List.mem_append_right _ hc
    obtain ⟨lower, hd1⟩ := Option.ne_none_iff_exists'.mp hne1
    obtain ⟨upper, hd2⟩ := Option.ne_none_iff_exists'.mp hne2
    refine ⟨Hash.from_bytes sha256 (lower ++ upper), ?_⟩
    unfold visit_string
    rw [if_neg (by omega), hd1, hd2]

theorem hash_visit_string_domain_w :
    visit_string sha0 (List.replicate 31 48) = none :=
  (hash_visit_string_domain sha0).1 (List.replicate 31 48) (by decide)

/-! ### Claim C8 -/

/-- C8 evidence: serialization does emit 64 lowercase hex characters of the
raw 32 bytes, but deserialization does not round-trip: `visit_string` reads
only the first 32 characters and re-hashes the decoded bytes, so the
encodings of the two distinct hashes `⟨0, 0⟩` and `⟨0, 1⟩` deserialize to the
same value — whatever the digest function — and
`deserialize(serialize(h)) = h` fails for some `h`. -/
theorem hash_serde_no_roundtrip (sha256 : List Nat → List Nat) :
    (∀ h : Hash, (Hash.serialize h).length = 64)
    ∧ (∀ h : Hash, ∀ c ∈ Hash.serialize h, (48 ≤ c ∧ c ≤ 57) ∨ (97 ≤ c ∧ c ≤ 102))
    ∧ visit_string sha256 (Hash.serialize ⟨0, 0⟩) = visit_string sha256 (Hash.serialize ⟨0, 1⟩)
    ∧ ¬ (∀ h : Hash, visit_string sha256 (Hash.serialize h) = some h) := by
  have htake : (Hash.serialize ⟨0, 0⟩).take 32 = (Hash.serialize ⟨0, 1⟩).take 32 := by decide
  refine ⟨?_, ?_, ?_, ?_⟩
  · intro h
    simp [Hash.serialize, hexEncode_length, List.length_append, leBytes_length]
  · intro h c hc
    refine hexEncode_range (leBytes 16 h.lo ++ leBytes 16 h.hi) ?_ c hc
    intro b hb
    rcases List.mem_append.mp hb with hb' | hb'
    · exact leBytes_lt 16 h.lo b hb'
    · exact leBytes_lt 16 h.hi b hb'
  · exact visit_string_take32 sha256 (Hash.serialize ⟨0, 0⟩) (Hash.serialize ⟨0, 1⟩) htake
  · intro hrt
    have h0 := hrt ⟨0, 0⟩
    have h1 := hrt ⟨0, 1⟩
    rw [visit_string_take32 sha256 (Hash.serialize ⟨0, 0⟩) (Hash.serialize ⟨0, 1⟩) htake,
      h1] at h0
    exact absurd (Option.some.inj h0) (by decide)

end ChainRs
